import Mathlib

/-!
Shallow embedding of the voice-control repository's command resolution engine
and pipeline coordinator, together with proofs about it.

Sources embedded:
- src/agents/command_parser_agent.py (CommandParserAgent: catalog, matcher,
  resolver), including the similarity metric it delegates to
  (difflib.SequenceMatcher ratio, i.e. Gestalt / Ratcliff-Obershelp pattern
  matching: total size of recursively located longest common contiguous
  blocks, 2*M/T).  The junk heuristics of difflib are omitted: the agent
  passes isjunk=None, and the autojunk heuristic only activates on strings of
  length >= 200, far beyond command phrases.
- src/main.py (VoiceControlOrchestrator.process_voice_command), with the
  audio-capture, speaker-id and transcription collaborators abstracted as
  functions, and the log sink modelled as the list of events handed to it.

Python strings are modelled as lists of characters (Str), Python float
scores as exact rationals, Python dicts as association lists in insertion
order (unique keys; lookup takes the first binding), and fallible calls as
Option results (none = the Python call returned None or raised).
-/

set_option maxRecDepth 40000

abbrev Str := List Char

/-- Python str.lower(): ASCII case folding suffices for command phrases. -/
def pyLower (s : Str) : Str := s.map Char.toLower

/-- Python str.strip(): drop leading and trailing whitespace. -/
def pyStrip (s : Str) : Str :=
  ((s.dropWhile Char.isWhitespace).reverse.dropWhile Char.isWhitespace).reverse

/-- Input normalization performed by CommandParserAgent.process line 70:
text.lower().strip(). -/
def pyNormalize (s : Str) : Str := pyStrip (pyLower s)

/-- Python dict membership plus indexing: first binding for the key. -/
def lookup (l : List (Str × Str)) (k : Str) : Option Str :=
  (l.find? (fun p => p.1 == k)).map (fun p => p.2)

/-- Python dict assignment d[k] = v: overwrite in place if the key is
present (Python dicts keep the original insertion position), else append. -/
def dictInsert (l : List (Str × Str)) (k v : Str) : List (Str × Str) :=
  if (l.find? (fun p => p.1 == k)).isSome then
    l.map (fun p => if p.1 == k then (k, v) else p)
  else
    l ++ [(k, v)]

/-- Python truthiness for Optional[str]: None and the empty string are falsy. -/
def pyTruthy (o : Option Str) : Bool :=
  match o with
  | none => false
  | some s => !s.isEmpty

/-- Whether the first string is a prefix of the second (helper for inPy). -/
def hasPfx : Str → Str → Bool
  | [], _ => true
  | _ :: _, [] => false
  | x :: xs, y :: ys => x == y && hasPfx xs ys

/-- Python substring containment sub in s (the empty string is in
every string). -/
def inPy (sub : Str) : Str → Bool
  | [] => hasPfx sub []
  | c :: rest => hasPfx sub (c :: rest) || inPy sub rest

/-- Length of the common prefix of two character lists. -/
def cpl : Str → Str → Nat
  | x :: xs, y :: ys => if x = y then cpl xs ys + 1 else 0
  | _, _ => 0

/-- One candidate step of find_longest_match: replace the current best block
only on a strictly larger size, so the first-seen maximum (smallest start in
a, then in b) wins, matching difflib's documented tie-break. -/
def flmStep (a b : Str) (best : Nat × Nat × Nat) (ij : Nat × Nat) : Nat × Nat × Nat :=
  if best.2.2 < cpl (a.drop ij.1) (b.drop ij.2) then
    (ij.1, ij.2, cpl (a.drop ij.1) (b.drop ij.2))
  else best

/-- difflib SequenceMatcher.find_longest_match over the whole strings:
the longest pair of equal contiguous blocks (i, j, size), earliest in a and
then in b among maxima; (0, 0, 0) when there is no common character. -/
def findLongestMatch (a b : Str) : Nat × Nat × Nat :=
  ((List.range (a.length + 1)).flatMap
      (fun i => (List.range (b.length + 1)).map (fun j => (i, j)))).foldl
    (flmStep a b) (0, 0, 0)

/-- Total matched characters of difflib get_matching_blocks: take the longest
matching block and recurse on the two unmatched sides.  Structured with an
explicit fuel argument to make the definition structurally recursive; each
recursive call strictly shrinks combined length, so fuel = combined length
(see matchSize) never runs out before the recursion bottoms out. -/
def matchSizeF : Nat → Str → Str → Nat
  | 0, _, _ => 0
  | fuel + 1, a, b =>
    if (findLongestMatch a b).2.2 = 0 then 0
    else
      matchSizeF fuel (a.take (findLongestMatch a b).1) (b.take (findLongestMatch a b).2.1) +
        (findLongestMatch a b).2.2 +
        matchSizeF fuel
          (a.drop ((findLongestMatch a b).1 + (findLongestMatch a b).2.2))
          (b.drop ((findLongestMatch a b).2.1 + (findLongestMatch a b).2.2))

/-- Total matched characters M between two strings (Ratcliff-Obershelp). -/
def matchSize (a b : Str) : Nat := matchSizeF (a.length + b.length) a b

/-- difflib SequenceMatcher.ratio(): 2*M/T, and 1.0 when both strings are
empty (difflib._calculate_ratio). -/
def ratio (a b : Str) : ℚ :=
  if a.length + b.length = 0 then 1
  else (2 * (matchSize a b : ℚ)) / ((a.length + b.length : ℕ) : ℚ)

/-- Score of one candidate phrase inside CommandParserAgent._fuzzy_match
(lines 131-135): SequenceMatcher ratio, floored at 0.8 when either string
contains the other. -/
def score (t cand : Str) : ℚ :=
  if inPy cand t || inPy t cand then max (ratio t cand) (4/5) else ratio t cand

/-- Loop body of _fuzzy_match: keep the candidate only on a strictly larger
ratio, so the first-seen maximum wins. -/
def fmStep (t : Str) (acc : Option Str × ℚ) (p : Str × Str) : Option Str × ℚ :=
  if acc.2 < score t p.1 then (some p.1, score t p.1) else acc

/-- CommandParserAgent._fuzzy_match (lines 117-141): best match and best
ratio over the command keys in insertion order. -/
def fuzzyMatch (cmds : List (Str × Str)) (t : Str) : Option Str × ℚ :=
  cmds.foldl (fmStep t) (none, 0)

/-- Mutable state of CommandParserAgent that the resolution path reads:
the command dict, the alias dict, and the two config settings. -/
structure ParserState where
  commands : List (Str × Str)
  aliases : List (Str × Str)
  fuzzy_matching : Bool
  confidence_threshold : ℚ
deriving DecidableEq

/-- The dict returned by CommandParserAgent.process (lines 82-115). -/
structure Resolution where
  command : Str
  original_text : Str
  matched_text : Option Str
  confidence : ℚ
  match_type : Str
deriving DecidableEq

/-- The no-match dict built at lines 109-115 of command_parser_agent.py. -/
def unknownRes (raw : Str) : Resolution :=
  ⟨"UNKNOWN".data, raw, none, 0, "none".data⟩

/-- Alias substitution of process lines 74-75: one lookup, target used as is. -/
def resolveAlias (aliases : List (Str × Str)) (t : Str) : Str :=
  match lookup aliases t with
  | some b => b
  | none => t

/-- Lines 78-115 of CommandParserAgent.process, after alias substitution:
exact match, fuzzy fallback guarded by Python truthiness of best_match and
the confidence threshold, then the no-match dict.  none models an uncaught
exception (the dict access self.commands[best_match] on a missing key);
every return statement of the source is a some. -/
def matchPhase (st : ParserState) (raw text : Str) : Option Resolution :=
  match lookup st.commands text with
  | some command => some ⟨command, raw, some text, 1, "exact".data⟩
  | none =>
    if st.fuzzy_matching then
      if pyTruthy (fuzzyMatch st.commands text).1 = true ∧
          st.confidence_threshold ≤ (fuzzyMatch st.commands text).2 then
        match (fuzzyMatch st.commands text).1 with
        | some b =>
          match lookup st.commands b with
          | some command =>
            some ⟨command, raw, some b, (fuzzyMatch st.commands text).2, "fuzzy".data⟩
          | none => none
        | none => none
      else some (unknownRes raw)
    else some (unknownRes raw)

/-- CommandParserAgent.process on an initialized agent given the
transcription text (lines 70-115): normalize, substitute the alias once,
then run the match phase. -/
def process (st : ParserState) (raw : Str) : Option Resolution :=
  matchPhase st raw (resolveAlias st.aliases (pyNormalize raw))

/-- CommandParserAgent initialization from a parsed configuration source
(lines 40-41): the command and alias maps are stored exactly as parsed. -/
def initParser (cmds aliases : List (Str × Str)) (fuzzy : Bool) (threshold : ℚ) :
    ParserState :=
  ⟨cmds, aliases, fuzzy, threshold⟩

/-- CommandParserAgent.add_command (line 166):
self.commands[text.lower()] = action. -/
def add_command (st : ParserState) (text action : Str) : ParserState :=
  { st with commands := dictInsert st.commands (pyLower text) action }

/-- Transcription dict returned by the recognition agent (fields read
downstream). -/
structure Transcription where
  text : Str
  language : Str
deriving DecidableEq

/-- Speaker dict returned by the speaker-id agent (fields read by logging). -/
structure SpeakerInfo where
  speaker_id : Str
  confidence : ℚ
deriving DecidableEq

/-- One event handed to the logging agent (the log sink) during
process_voice_command: log_error, log_transcription or log_command. -/
inductive LogEvent where
  | error (msg : Str)
  | transcription (text language : Str) (speaker : Option SpeakerInfo)
  | command (r : Resolution)
deriving DecidableEq

/-- The combined result dict built at main.py lines 165-170. -/
structure PipelineResult where
  transcription : Transcription
  command : Resolution
  speaker : Option SpeakerInfo
  success : Bool
deriving DecidableEq

/-- VoiceControlOrchestrator.process_voice_command (main.py lines 127-180)
over abstract collaborators: the capture result, the speaker-id and
transcription collaborators as functions of the captured audio, and the
parser state.  Returns the value given back to the caller (none on the
early-return failure paths) paired with the ordered list of events handed
to the log sink. -/
def process_voice_command {α : Type} (captureResult : Option α)
    (speakerOf : α → Option SpeakerInfo) (transcribeOf : α → Option Transcription)
    (parser : ParserState) : Option PipelineResult × List LogEvent :=
  match captureResult with
  | none => (none, [LogEvent.error "Audio capture failed".data])
  | some audio =>
    let speaker_info := speakerOf audio
    match transcribeOf audio with
    | none => (none, [LogEvent.error "Transcription failed".data])
    | some tr =>
      if tr.text.isEmpty then (none, [LogEvent.error "Transcription failed".data])
      else
        match process parser tr.text with
        | none =>
          (none, [LogEvent.transcription tr.text tr.language speaker_info,
                  LogEvent.error "Command parsing failed".data])
        | some cr =>
          (some ⟨tr, cr, speaker_info, !(cr.command == "UNKNOWN".data)⟩,
           [LogEvent.transcription tr.text tr.language speaker_info,
            LogEvent.command cr])

/-! Basic facts about the similarity metric. -/

theorem cpl_le_left : ∀ x y : Str, cpl x y ≤ x.length := by
  intro x
  induction x with
  | nil => intro y; cases y <;> simp [cpl]
  | cons a xs ih =>
    intro y
    cases y with
    | nil => simp [cpl]
    | cons b ys =>
      simp only [cpl, List.length_cons]
      split
      · exact Nat.succ_le_succ (ih ys)
      · omega

theorem cpl_le_right : ∀ x y : Str, cpl x y ≤ y.length := by
  intro x
  induction x with
  | nil => intro y; cases y <;> simp [cpl]
  | cons a xs ih =>
    intro y
    cases y with
    | nil => simp [cpl]
    | cons b ys =>
      simp only [cpl, List.length_cons]
      split
      · exact Nat.succ_le_succ (ih ys)
      · omega

theorem cpl_take : ∀ x y : Str, x.take (cpl x y) = y.take (cpl x y) := by
  intro x
  induction x with
  | nil => intro y; cases y <;> simp [cpl]
  | cons a xs ih =>
    intro y
    cases y with
    | nil => simp [cpl]
    | cons b ys =>
      simp only [cpl]
      split
      · rename_i hab
        simp only [List.take_succ_cons, hab]
        rw [ih ys]
      · simp

theorem flm_foldl_inv (a b : Str) :
    ∀ (l : List (Nat × Nat)) (s : Nat × Nat × Nat),
      (s.2.2 ≠ 0 → s.2.2 = cpl (a.drop s.1) (b.drop s.2.1)) →
      ((l.foldl (flmStep a b) s).2.2 ≠ 0 →
        (l.foldl (flmStep a b) s).2.2 =
          cpl (a.drop (l.foldl (flmStep a b) s).1)
            (b.drop (l.foldl (flmStep a b) s).2.1)) := by
  intro l
  induction l with
  | nil => intro s hs; exact hs
  | cons p l ih =>
    intro s hs
    simp only [List.foldl_cons]
    apply ih
    unfold flmStep
    split
    · intro _; rfl
    · exact hs

theorem findLongestMatch_spec (a b : Str)
    (h : (findLongestMatch a b).2.2 ≠ 0) :
    (findLongestMatch a b).2.2 =
      cpl (a.drop (findLongestMatch a b).1) (b.drop (findLongestMatch a b).2.1) := by
  exact flm_foldl_inv a b _ (0, 0, 0) (by intro h0; exact absurd rfl h0) h

theorem matchSizeF_le : ∀ (fuel : Nat) (a b : Str),
    matchSizeF fuel a b ≤ a.length ∧ matchSizeF fuel a b ≤ b.length := by
  intro fuel
  induction fuel with
  | zero => intro a b; simp [matchSizeF]
  | succ n ih =>
    intro a b
    rw [matchSizeF]
    split
    · simp
    · rename_i hk
      have hspec := findLongestMatch_spec a b hk
      have h1 : (findLongestMatch a b).2.2 ≤ a.length - (findLongestMatch a b).1 := by
        rw [hspec]
        calc cpl (a.drop (findLongestMatch a b).1) (b.drop (findLongestMatch a b).2.1)
            ≤ (a.drop (findLongestMatch a b).1).length := cpl_le_left _ _
          _ = a.length - (findLongestMatch a b).1 := List.length_drop _ _
      have h2 : (findLongestMatch a b).2.2 ≤ b.length - (findLongestMatch a b).2.1 := by
        rw [hspec]
        calc cpl (a.drop (findLongestMatch a b).1) (b.drop (findLongestMatch a b).2.1)
            ≤ (b.drop (findLongestMatch a b).2.1).length := cpl_le_right _ _
          _ = b.length - (findLongestMatch a b).2.1 := List.length_drop _ _
      have hl := ih (a.take (findLongestMatch a b).1) (b.take (findLongestMatch a b).2.1)
      have hr := ih
        (a.drop ((findLongestMatch a b).1 + (findLongestMatch a b).2.2))
        (b.drop ((findLongestMatch a b).2.1 + (findLongestMatch a b).2.2))
      rw [List.length_take, List.length_take] at hl
      rw [List.length_drop, List.length_drop] at hr
      omega

theorem matchSize_le_left (a b : Str) : matchSize a b ≤ a.length :=
  (matchSizeF_le _ a b).1

theorem matchSize_le_right (a b : Str) : matchSize a b ≤ b.length :=
  (matchSizeF_le _ a b).2

theorem matchSizeF_eq_of_full : ∀ (fuel : Nat) (a b : Str),
    matchSizeF fuel a b = a.length → matchSizeF fuel a b = b.length → a = b := by
  intro fuel
  induction fuel with
  | zero =>
    intro a b ha hb
    simp only [matchSizeF] at ha hb
    rw [List.eq_nil_of_length_eq_zero ha.symm, List.eq_nil_of_length_eq_zero hb.symm]
  | succ n ih =>
    intro a b ha hb
    rw [matchSizeF] at ha hb
    by_cases hk : (findLongestMatch a b).2.2 = 0
    · rw [if_pos hk] at ha hb
      rw [List.eq_nil_of_length_eq_zero ha.symm, List.eq_nil_of_length_eq_zero hb.symm]
    · rw [if_neg hk] at ha hb
      have hspec := findLongestMatch_spec a b hk
      set i := (findLongestMatch a b).1 with hi
      set j := (findLongestMatch a b).2.1 with hj
      set k := (findLongestMatch a b).2.2 with hkk
      have hb1 := (matchSizeF_le n (a.take i) (b.take j)).1
      have hb2 := (matchSizeF_le n (a.take i) (b.take j)).2
      have hb3 := (matchSizeF_le n (a.drop (i + k)) (b.drop (j + k))).1
      have hb4 := (matchSizeF_le n (a.drop (i + k)) (b.drop (j + k))).2
      rw [List.length_take] at hb1 hb2
      rw [List.length_drop] at hb3 hb4
      have hk1 : k ≤ a.length - i := by
        rw [hspec]
        exact le_trans (cpl_le_left _ _) (le_of_eq (List.length_drop _ _))
      have hk2 : k ≤ b.length - j := by
        rw [hspec]
        exact le_trans (cpl_le_right _ _) (le_of_eq (List.length_drop _ _))
      have hkpos : 0 < k := Nat.pos_of_ne_zero hk
      have heq1 : a.take i = b.take j := by
        apply ih <;> rw [List.length_take] <;> omega
      have heq2 : a.drop (i + k) = b.drop (j + k) := by
        apply ih <;> rw [List.length_drop] <;> omega
      have hmid : (a.drop i).take k = (b.drop j).take k := by
        rw [hspec]
        exact cpl_take _ _
      have hdda : (a.drop i).drop k = a.drop (i + k) := by
        rw [List.drop_drop, Nat.add_comm]
      have hddb : (b.drop j).drop k = b.drop (j + k) := by
        rw [List.drop_drop, Nat.add_comm]
      have hda : a = a.take i ++ ((a.drop i).take k ++ a.drop (i + k)) := by
        rw [← hdda, List.take_append_drop, List.take_append_drop]
      have hdb : b = b.take j ++ ((b.drop j).take k ++ b.drop (j + k)) := by
        rw [← hddb, List.take_append_drop, List.take_append_drop]
      rw [hda, heq1, hmid, heq2]
      exact hdb.symm

theorem ratio_nonneg (a b : Str) : 0 ≤ ratio a b := by
  unfold ratio
  split
  · norm_num
  · apply div_nonneg
    · positivity
    · positivity

theorem ratio_le_one (a b : Str) : ratio a b ≤ 1 := by
  unfold ratio
  split
  · norm_num
  · rename_i h0
    rw [div_le_one (by positivity)]
    have h1 := matchSize_le_left a b
    have h2 := matchSize_le_right a b
    have : 2 * matchSize a b ≤ a.length + b.length := by omega
    calc (2 : ℚ) * (matchSize a b : ℚ) = ((2 * matchSize a b : ℕ) : ℚ) := by push_cast; ring
      _ ≤ ((a.length + b.length : ℕ) : ℚ) := by exact_mod_cast this

theorem eq_of_ratio_eq_one (a b : Str) (h : ratio a b = 1) : a = b := by
  unfold ratio at h
  split at h
  · rename_i h0
    have ha : a = [] := List.eq_nil_of_length_eq_zero (by omega)
    have hb : b = [] := List.eq_nil_of_length_eq_zero (by omega)
    rw [ha, hb]
  · rename_i h0
    have hne : ((a.length + b.length : ℕ) : ℚ) ≠ 0 := by
      exact_mod_cast h0
    rw [div_eq_iff hne, one_mul] at h
    have hN : 2 * matchSize a b = a.length + b.length := by exact_mod_cast h
    have h1 := matchSize_le_left a b
    have h2 := matchSize_le_right a b
    have hma : matchSize a b = a.length := by omega
    have hmb : matchSize a b = b.length := by omega
    exact matchSizeF_eq_of_full (a.length + b.length) a b hma hmb

theorem score_nonneg (t c : Str) : 0 ≤ score t c := by
  unfold score
  split
  · exact le_trans (ratio_nonneg t c) (le_max_left _ _)
  · exact ratio_nonneg t c

theorem score_le_one (t c : Str) : score t c ≤ 1 := by
  unfold score
  split
  · exact max_le (ratio_le_one t c) (by norm_num)
  · exact ratio_le_one t c

theorem eq_of_score_eq_one (t c : Str) (h : score t c = 1) : t = c := by
  unfold score at h
  split at h
  · rcases max_eq_iff.mp h with ⟨h1, _⟩ | ⟨h1, _⟩
    · exact eq_of_ratio_eq_one t c h1
    · norm_num at h1
  · exact eq_of_ratio_eq_one t c h

/-! Facts about the matcher loop and the dict model. -/

theorem lookup_isSome_of_mem {l : List (Str × Str)} {p : Str × Str} (h : p ∈ l) :
    (lookup l p.1).isSome = true := by
  have hf : (l.find? (fun q => q.1 == p.1)).isSome = true :=
    List.find?_isSome.mpr ⟨p, h, by simp⟩
  rcases Option.isSome_iff_exists.mp hf with ⟨q, hq⟩
  simp [lookup, hq]

theorem fm_foldl_inv (t : Str) (K : List (Str × Str)) :
    ∀ (l : List (Str × Str)) (acc : Option Str × ℚ),
      (∀ p ∈ l, (lookup K p.1).isSome = true) →
      (acc = (none, 0) ∨
        ∃ b, acc.1 = some b ∧ (lookup K b).isSome = true ∧ acc.2 = score t b) →
      (l.foldl (fmStep t) acc = (none, 0) ∨
        ∃ b, (l.foldl (fmStep t) acc).1 = some b ∧ (lookup K b).isSome = true ∧
          (l.foldl (fmStep t) acc).2 = score t b) := by
  intro l
  induction l with
  | nil => intro acc _ hacc; exact hacc
  | cons p l ih =>
    intro acc hl hacc
    simp only [List.foldl_cons]
    apply ih
    · intro q hq
      exact hl q (List.mem_cons_of_mem _ hq)
    · unfold fmStep
      split
      · right
        exact ⟨p.1, rfl, hl p (List.mem_cons_self _ _), rfl⟩
      · exact hacc

theorem fuzzyMatch_spec (cmds : List (Str × Str)) (t : Str) :
    fuzzyMatch cmds t = (none, 0) ∨
      ∃ b, (fuzzyMatch cmds t).1 = some b ∧ (lookup cmds b).isSome = true ∧
        (fuzzyMatch cmds t).2 = score t b := by
  exact fm_foldl_inv t cmds cmds (none, 0) (fun p hp => lookup_isSome_of_mem hp) (Or.inl rfl)

theorem process_isSome (st : ParserState) (raw : Str) :
    (process st raw).isSome = true := by
  unfold process matchPhase
  cases hcl : lookup st.commands (resolveAlias st.aliases (pyNormalize raw)) with
  | some c => simp
  | none =>
    simp only
    split
    · split
      · rename_i hcond
        obtain ⟨ht, hth⟩ := hcond
        rcases fuzzyMatch_spec st.commands (resolveAlias st.aliases (pyNormalize raw)) with
          heq | ⟨b, hb1, hb2, hb3⟩
        · rw [heq] at ht
          simp [pyTruthy] at ht
        · rw [hb1]
          rcases Option.isSome_iff_exists.mp hb2 with ⟨c, hc⟩
          simp [hc]
      · simp
    · simp

theorem lookup_map_overwrite (k v : Str) :
    ∀ l : List (Str × Str), (l.find? (fun p => p.1 == k)).isSome = true →
      lookup (l.map (fun p => if p.1 == k then (k, v) else p)) k = some v := by
  intro l
  induction l with
  | nil => intro h; simp at h
  | cons p l ih =>
    intro h
    by_cases hp : p.1 = k
    · simp [lookup, List.find?, hp]
    · have hp2 : (p.1 == k) = false := by simp [hp]
      simp only [List.map_cons, hp2, if_false, Bool.false_eq_true]
      rw [List.find?_cons_of_neg] at h
      · have := ih h
        simp only [lookup] at this ⊢
        rw [List.find?_cons_of_neg]
        · exact this
        · simp [hp]
      · simp [hp]

theorem lookup_dictInsert (l : List (Str × Str)) (k v : Str) :
    lookup (dictInsert l k v) k = some v := by
  unfold dictInsert
  split
  · exact lookup_map_overwrite k v l (by assumption)
  · rename_i h
    have hnone : l.find? (fun p => p.1 == k) = none :=
      Option.not_isSome_iff_eq_none.mp (by simpa using h)
    simp [lookup, List.find?_append, hnone]

theorem matchPhase_inv (st : ParserState) (raw text : Str) (r : Resolution) :
    matchPhase st raw text = some r →
      ((r.confidence = 1 ↔ r.match_type = "exact".data) ∧
       (r.match_type = "none".data → r.confidence = 0 ∧ r.command = "UNKNOWN".data)) := by
  unfold matchPhase
  split
  · intro h
    obtain rfl := Option.some.inj h
    exact ⟨⟨fun _ => rfl, fun _ => rfl⟩,
      fun habs => absurd (show ("exact".data : Str) = "none".data from habs) (by decide)⟩
  · rename_i hcl
    split
    · split
      · rename_i hcond
        obtain ⟨ht, hth⟩ := hcond
        split
        · rename_i b heq
          split
          · rename_i command hcb
            intro h
            obtain rfl := Option.some.inj h
            have hconf : (fuzzyMatch st.commands text).2 ≠ 1 := by
              rcases fuzzyMatch_spec st.commands text with heq2 | ⟨b2, hb1, _, hb3⟩
              · rw [heq2] at heq
                simp at heq
              · rw [heq] at hb1
                obtain rfl := Option.some.inj hb1.symm
                rw [hb3]
                intro hone
                rw [eq_of_score_eq_one text b2 hone, hcb] at hcl
                simp at hcl
            refine ⟨⟨fun h1 => absurd h1 hconf,
              fun habs => absurd (show ("fuzzy".data : Str) = "exact".data from habs) (by decide)⟩,
              fun habs => absurd (show ("fuzzy".data : Str) = "none".data from habs) (by decide)⟩
          · exact fun h => absurd h (by simp)
        · exact fun h => absurd h (by simp)
      · intro h
        obtain rfl := Option.some.inj h
        refine ⟨⟨fun h01 => absurd (show (0 : ℚ) = 1 from h01) (by norm_num),
          fun habs => absurd (show ("none".data : Str) = "exact".data from habs) (by decide)⟩,
          fun _ => ⟨rfl, rfl⟩⟩
    · intro h
      obtain rfl := Option.some.inj h
      refine ⟨⟨fun h01 => absurd (show (0 : ℚ) = 1 from h01) (by norm_num),
        fun habs => absurd (show ("none".data : Str) = "exact".data from habs) (by decide)⟩,
        fun _ => ⟨rfl, rfl⟩⟩

/-! Claim theorems. -/

/-- Claim C3: every Resolution produced by process satisfies: confidence
equals 1.0 exactly when the match kind is exact, and match kind none forces
confidence 0.0 and command UNKNOWN. -/
theorem resolution_confidence_invariant (st : ParserState) (raw : Str) (r : Resolution)
    (h : process st raw = some r) :
    (r.confidence = 1 ↔ r.match_type = "exact".data) ∧
    (r.match_type = "none".data → r.confidence = 0 ∧ r.command = "UNKNOWN".data) :=
  matchPhase_inv st raw (resolveAlias st.aliases (pyNormalize raw)) r h

/-- Witness for C3 at a concrete no-match run. -/
theorem resolution_confidence_invariant_witness :
    ((unknownRes "hi".data).confidence = 1 ↔
      (unknownRes "hi".data).match_type = "exact".data) ∧
    ((unknownRes "hi".data).match_type = "none".data →
      (unknownRes "hi".data).confidence = 0 ∧
      (unknownRes "hi".data).command = "UNKNOWN".data) :=
  resolution_confidence_invariant ⟨[], [], false, 0⟩ "hi".data (unknownRes "hi".data) rfl

/-- Claim C4: a substring relation in either direction floors the candidate
score at 0.8: the score is at least 4/5, never below the computed ratio, and
a ratio already at or above 4/5 passes through unchanged. -/
theorem containment_floor_score (t cand : Str)
    (h : inPy cand t = true ∨ inPy t cand = true) :
    4/5 ≤ score t cand ∧ ratio t cand ≤ score t cand ∧
      (4/5 ≤ ratio t cand → score t cand = ratio t cand) := by
  have hc : (inPy cand t || inPy t cand) = true := by
    rcases h with h | h <;> simp [h]
  unfold score
  rw [if_pos hc]
  exact ⟨le_max_right _ _, le_max_left _ _, fun hr => max_eq_left hr⟩

/-- Witness for C4: the catalog phrase top is contained in the input stop. -/
theorem containment_floor_score_witness :
    4/5 ≤ score "stop".data "top".data ∧
      ratio "stop".data "top".data ≤ score "stop".data "top".data ∧
      (4/5 ≤ ratio "stop".data "top".data →
        score "stop".data "top".data = ratio "stop".data "top".data) :=
  containment_floor_score "stop".data "top".data (Or.inl (by decide))

/-- Claim C10: the fuzzy best-match search returns either no phrase with
score 0.0 or a phrase that is a key of the command dict with a score in the
unit interval; consequently the resolver never hits the missing-key error
branch and process always returns a Resolution. -/
theorem matcher_safety :
    (∀ (cmds : List (Str × Str)) (t : Str),
      fuzzyMatch cmds t = (none, 0) ∨
        ∃ b, (fuzzyMatch cmds t).1 = some b ∧ (lookup cmds b).isSome = true ∧
          0 ≤ (fuzzyMatch cmds t).2 ∧ (fuzzyMatch cmds t).2 ≤ 1) ∧
    (∀ (st : ParserState) (raw : Str), (process st raw).isSome = true) := by
  constructor
  · intro cmds t
    rcases fuzzyMatch_spec cmds t with heq | ⟨b, hb1, hb2, hb3⟩
    · exact Or.inl heq
    · exact Or.inr ⟨b, hb1, hb2, by rw [hb3]; exact score_nonneg t b,
        by rw [hb3]; exact score_le_one t b⟩
  · exact process_isSome

/-- Claim C8: when capture yields no audio, process_voice_command returns the
failure value with exactly one error event handed to the log sink, and the
speaker-tagging, transcription and resolution stages never run: the outcome
is identical for every choice of those collaborators. -/
theorem capture_failure_short_circuits (α : Type) (speakerOf : α → Option SpeakerInfo)
    (transcribeOf : α → Option Transcription) (parser : ParserState) :
    process_voice_command (none : Option α) speakerOf transcribeOf parser =
      (none, [LogEvent.error "Audio capture failed".data]) := rfl

/-- Claim C5 counterexample: loading stores configuration keys exactly as
given, without lowercasing or stripping, and add_command lowercases its key
but does not strip whitespace; both leave keys that normalization would
change. -/
theorem catalog_keys_not_normalized_cex :
    ((initParser [(" Stop".data, "X".data)] [] true (3/5)).commands =
        [(" Stop".data, "X".data)] ∧ pyNormalize " Stop".data ≠ " Stop".data) ∧
    ((add_command (initParser [] [] true (3/5)) "Go ".data "X".data).commands =
        [("go ".data, "X".data)] ∧ pyNormalize "go ".data ≠ "go ".data) := by
  refine ⟨⟨rfl, by decide⟩, ⟨?_, by decide⟩⟩
  simp [add_command, initParser, dictInsert, lookup]
  decide

/-- Claim C5 amended: loading stores keys unchanged, and add_command registers
the action under the lowercased (but not whitespace-stripped) key. -/
theorem add_command_lowercases_key (cmds aliases : List (Str × Str)) (fuzzy : Bool)
    (threshold : ℚ) (text action : Str) :
    (initParser cmds aliases fuzzy threshold).commands = cmds ∧
    lookup ((add_command (initParser cmds aliases fuzzy threshold) text action).commands)
      (pyLower text) = some action :=
  ⟨rfl, lookup_dictInsert cmds (pyLower text) action⟩

/-- Claim C2 counterexample: the phrase go is in the command set with action
GO, yet resolving the input go is not an exact match on go: the alias entry
for go diverts the text before matching, yielding the no-match Resolution. -/
theorem aliased_phrase_not_exact_cex :
    lookup [("go".data, "GO".data)] "go".data = some "GO".data ∧
    process ⟨[("go".data, "GO".data)], [("go".data, "stop".data)], false, 3/5⟩
        "go".data = some (unknownRes "go".data) :=
  ⟨by decide, rfl⟩

/-- Claim C2 amended: for a phrase that is already normalized and is not an
alias key, input equal to the phrase resolves exactly, with confidence 1.0
and the phrase's configured action, for every fuzzy setting and threshold
(the exact path preempts fuzzy scoring) after the single alias lookup. -/
theorem exact_match_of_normalized_unaliased (cmds al : List (Str × Str))
    (P act : Str) (fuzzy : Bool) (threshold : ℚ)
    (h1 : pyNormalize P = P) (h2 : lookup al P = none) (h3 : lookup cmds P = some act) :
    process ⟨cmds, al, fuzzy, threshold⟩ P = some ⟨act, P, some P, 1, "exact".data⟩ := by
  have e1 : resolveAlias al (pyNormalize P) = P := by
    rw [h1]
    unfold resolveAlias
    rw [h2]
  show matchPhase ⟨cmds, al, fuzzy, threshold⟩ P (resolveAlias al (pyNormalize P)) = _
  rw [e1]
  unfold matchPhase
  simp only [h3]

/-- Witness for C2 amended at a concrete catalog, with fuzzy enabled and a
zero threshold, showing the exact path still preempting fuzzy. -/
theorem exact_match_witness :
    process ⟨[("stop".data, "STOP".data)], [], true, 0⟩ "stop".data =
      some ⟨"STOP".data, "stop".data, some "stop".data, 1, "exact".data⟩ :=
  exact_match_of_normalized_unaliased [("stop".data, "STOP".data)] [] "stop".data
    "STOP".data true 0 (by decide) (by decide) (by decide)

/-- Claim C1 counterexample: with fuzzy matching enabled, a non-empty catalog
and the default threshold, the empty normalized input does not produce the
no-match Resolution: every phrase contains the empty string, so the
containment floor scores every phrase at 0.8 and the input fuzzy-matches. -/
theorem empty_input_fuzzy_matches_cex :
    pyNormalize [] = [] ∧
    (∃ r, process ⟨[("stop".data, "STOP".data)], [], true, 3/5⟩ [] = some r ∧
      r.match_type = "fuzzy".data ∧ r.confidence = 4/5 ∧ r.command = "STOP".data) := by
  refine ⟨rfl, ⟨"STOP".data, [], some "stop".data, 4/5, "fuzzy".data⟩, ?_, rfl, rfl, rfl⟩
  norm_num [process, matchPhase, resolveAlias, lookup, pyNormalize, pyStrip, pyLower,
    pyTruthy, fuzzyMatch, fmStep, score, ratio, inPy, hasPfx,
    show matchSize [] "stop".data = 0 from by decide]

/-- Claim C1 amended: an empty normalized input is never an error; with fuzzy
matching disabled and the empty string neither an alias key nor a command
phrase, it yields the no-match Resolution. -/
theorem empty_input_unknown_of_no_fuzzy (st : ParserState) (raw : Str)
    (h0 : pyNormalize raw = []) (h1 : st.fuzzy_matching = false)
    (h2 : lookup st.aliases [] = none) (h3 : lookup st.commands [] = none) :
    process st raw = some ⟨"UNKNOWN".data, raw, none, 0, "none".data⟩ := by
  have e1 : resolveAlias st.aliases (pyNormalize raw) = [] := by
    rw [h0]
    unfold resolveAlias
    rw [h2]
  show matchPhase st raw (resolveAlias st.aliases (pyNormalize raw)) = _
  rw [e1]
  unfold matchPhase
  simp only [h3, h1, unknownRes]
  rfl

/-- Witness for C1 amended: whitespace-only input with fuzzy matching off. -/
theorem empty_input_unknown_witness :
    process ⟨[("stop".data, "STOP".data)], [], false, 3/5⟩ " ".data =
      some ⟨"UNKNOWN".data, " ".data, none, 0, "none".data⟩ :=
  empty_input_unknown_of_no_fuzzy ⟨[("stop".data, "STOP".data)], [], false, 3/5⟩
    " ".data (by decide) rfl (by decide) (by decide)

/-! Branch equations for matchPhase, used to evaluate concrete resolutions. -/

theorem process_def (st : ParserState) (raw : Str) :
    process st raw = matchPhase st raw (resolveAlias st.aliases (pyNormalize raw)) := rfl

theorem matchPhase_eq_exact (st : ParserState) (raw text c : Str)
    (hcl : lookup st.commands text = some c) :
    matchPhase st raw text = some ⟨c, raw, some text, 1, "exact".data⟩ := by
  unfold matchPhase
  simp only [hcl]

theorem matchPhase_eq_unknown (st : ParserState) (raw text : Str)
    (hcl : lookup st.commands text = none)
    (hcond : ¬(pyTruthy (fuzzyMatch st.commands text).1 = true ∧
      st.confidence_threshold ≤ (fuzzyMatch st.commands text).2)) :
    matchPhase st raw text = some (unknownRes raw) := by
  unfold matchPhase
  rw [hcl]
  split
  · rename_i heq2
    exact absurd heq2 (by simp)
  · split <;> first
      | rfl
      | rw [if_neg hcond]

theorem matchPhase_eq_fuzzy (st : ParserState) (raw text b c : Str)
    (hcl : lookup st.commands text = none) (hf : st.fuzzy_matching = true)
    (hb : (fuzzyMatch st.commands text).1 = some b) (hbne : b ≠ [])
    (hth : st.confidence_threshold ≤ (fuzzyMatch st.commands text).2)
    (hcb : lookup st.commands b = some c) :
    matchPhase st raw text =
      some ⟨c, raw, some b, (fuzzyMatch st.commands text).2, "fuzzy".data⟩ := by
  have ht : pyTruthy (fuzzyMatch st.commands text).1 = true := by
    rw [hb]
    cases b with
    | nil => exact absurd rfl hbne
    | cons x xs => rfl
  unfold matchPhase
  rw [hcl, hf]
  show (if pyTruthy (fuzzyMatch st.commands text).1 = true ∧
      st.confidence_threshold ≤ (fuzzyMatch st.commands text).2 then _ else _) = _
  rw [if_pos ⟨ht, hth⟩, hb]
  simp only [hcb]

theorem fuzzyMatch_singleton (k v t : Str) :
    fuzzyMatch [(k, v)] t =
      if 0 < score t k then (some k, score t k) else ((none : Option Str), 0) := rfl

/-- Claim C6 counterexample: a catalog containing the empty phrase gives a
best fuzzy score of 0.8 (containment floor), at or above the 0.6 threshold,
with no exact match and fuzzy matching enabled, yet the resolver emits the
no-match Resolution: the empty best phrase is falsy in Python, so the guard
rejects it. -/
theorem threshold_fuzzy_emission_cex :
    lookup [(([] : Str), "X".data)] (resolveAlias [] (pyNormalize "a".data)) = none ∧
    (3/5 : ℚ) ≤ (fuzzyMatch [(([] : Str), "X".data)]
      (resolveAlias [] (pyNormalize "a".data))).2 ∧
    process ⟨[(([] : Str), "X".data)], [], true, 3/5⟩ "a".data =
      some (unknownRes "a".data) := by
  have hra : resolveAlias [] (pyNormalize "a".data) = "a".data := by decide
  have hr0 : ratio "a".data [] = 0 := by
    norm_num [ratio, show matchSize "a".data [] = 0 from by decide]
  have hs : score "a".data [] = 4/5 := by
    unfold score
    rw [if_pos (by decide), hr0]
    exact max_eq_right (by norm_num)
  have hfm : fuzzyMatch [(([] : Str), "X".data)] "a".data = (some [], 4/5) := by
    rw [fuzzyMatch_singleton, hs, if_pos (by norm_num : (0:ℚ) < 4/5)]
  refine ⟨by decide, ?_, ?_⟩
  · rw [hra, hfm]
    norm_num
  · rw [process_def,
      show (⟨[(([] : Str), "X".data)], [], true, 3/5⟩ : ParserState).aliases = []
        from rfl, hra]
    apply matchPhase_eq_unknown
    · decide
    · rintro ⟨h1, _⟩
      rw [show (⟨[(([] : Str), "X".data)], [], true, 3/5⟩ : ParserState).commands =
        [(([] : Str), "X".data)] from rfl, hfm] at h1
      simp [pyTruthy] at h1

/-- Claim C6 amended: with fuzzy matching enabled and no exact match, a fuzzy
Resolution is emitted exactly when the matcher's best phrase exists, is
non-empty (Python truthiness of best_match), and its score reaches the
threshold; below the threshold, or with no usable best phrase, the input
falls through to the no-match Resolution. -/
theorem fuzzy_emission_iff (st : ParserState) (raw : Str)
    (hf : st.fuzzy_matching = true)
    (hx : lookup st.commands (resolveAlias st.aliases (pyNormalize raw)) = none) :
    (∃ r, process st raw = some r ∧ r.match_type = "fuzzy".data) ↔
      (∃ b, (fuzzyMatch st.commands (resolveAlias st.aliases (pyNormalize raw))).1 =
          some b ∧ b ≠ [] ∧
        st.confidence_threshold ≤
          (fuzzyMatch st.commands (resolveAlias st.aliases (pyNormalize raw))).2) := by
  set t := resolveAlias st.aliases (pyNormalize raw) with hT
  have hM : process st raw =
      (if pyTruthy (fuzzyMatch st.commands t).1 = true ∧
          st.confidence_threshold ≤ (fuzzyMatch st.commands t).2 then
        match (fuzzyMatch st.commands t).1 with
        | some b =>
          match lookup st.commands b with
          | some command =>
            some ⟨command, raw, some b, (fuzzyMatch st.commands t).2, "fuzzy".data⟩
          | none => none
        | none => none
      else some (unknownRes raw)) := by
    show matchPhase st raw t = _
    unfold matchPhase
    rw [hx, hf]
    rfl
  rw [hM]
  constructor
  · rintro ⟨r, hr, hft⟩
    split at hr
    · rename_i hcond
      obtain ⟨ht, hth⟩ := hcond
      cases hfm : (fuzzyMatch st.commands t).1 with
      | none => rw [hfm] at ht; simp [pyTruthy] at ht
      | some b =>
        refine ⟨b, rfl, ?_, hth⟩
        rw [hfm] at ht
        intro hbnil
        rw [hbnil] at ht
        simp [pyTruthy] at ht
    · obtain rfl := Option.some.inj hr
      exact absurd (show ("none".data : Str) = "fuzzy".data from hft) (by decide)
  · rintro ⟨b, hb1, hbne, hble⟩
    have ht : pyTruthy (fuzzyMatch st.commands t).1 = true := by
      rw [hb1]
      cases b with
      | nil => exact absurd rfl hbne
      | cons c cs => rfl
    rcases fuzzyMatch_spec st.commands t with heq | ⟨b2, hb12, hb2some, _⟩
    · rw [heq] at hb1
      simp at hb1
    · rw [hb1] at hb12
      obtain rfl := Option.some.inj hb12.symm
      rcases Option.isSome_iff_exists.mp hb2some with ⟨c, hc⟩
      refine ⟨⟨c, raw, some b2, (fuzzyMatch st.commands t).2, "fuzzy".data⟩, ?_, rfl⟩
      rw [if_pos ⟨ht, hble⟩, hb1]
      simp only [hc]

/-- Witness for C6 amended: a best score of exactly 3/5 at threshold 3/5
resolves as fuzzy. -/
theorem fuzzy_emission_iff_witness :
    ∃ r, process ⟨[("abcdef".data, "GO".data)], [], true, 3/5⟩ "abcx".data = some r ∧
      r.match_type = "fuzzy".data := by
  have hrt : ratio "abcx".data "abcdef".data = 3/5 := by
    norm_num [ratio, show matchSize "abcx".data "abcdef".data = 3 from by decide]
  have hs : score "abcx".data "abcdef".data = 3/5 := by
    unfold score
    rw [if_neg (by decide), hrt]
  have hfm : fuzzyMatch [("abcdef".data, "GO".data)] "abcx".data =
      (some "abcdef".data, 3/5) := by
    rw [fuzzyMatch_singleton, hs, if_pos (by norm_num : (0:ℚ) < 3/5)]
  apply (fuzzy_emission_iff ⟨[("abcdef".data, "GO".data)], [], true, 3/5⟩ "abcx".data
    rfl (by decide)).mpr
  refine ⟨"abcdef".data, ?_, by decide, ?_⟩
  · rw [show (⟨[("abcdef".data, "GO".data)], [], true, 3/5⟩ : ParserState).commands =
        [("abcdef".data, "GO".data)] from rfl,
      show (⟨[("abcdef".data, "GO".data)], [], true, 3/5⟩ : ParserState).aliases = []
        from rfl,
      show resolveAlias [] (pyNormalize "abcx".data) = "abcx".data from by decide, hfm]
  · rw [show (⟨[("abcdef".data, "GO".data)], [], true, 3/5⟩ : ParserState).commands =
        [("abcdef".data, "GO".data)] from rfl,
      show (⟨[("abcdef".data, "GO".data)], [], true, 3/5⟩ : ParserState).aliases = []
        from rfl,
      show resolveAlias [] (pyNormalize "abcx".data) = "abcx".data from by decide, hfm]

/-- Claim C7 counterexample: with aliases a to see and see to se and the
command phrase se, resolving a substitutes see once, which then
fuzzy-matches the phrase se by containment, so the result is exactly the
catalog entry of the chained alias target se. -/
theorem alias_target_entry_cex :
    lookup [("a".data, "see".data), ("see".data, "se".data)] "a".data =
      some "see".data ∧
    lookup [("a".data, "see".data), ("see".data, "se".data)] "see".data =
      some "se".data ∧
    lookup [("se".data, "ACT".data)] "se".data = some "ACT".data ∧
    process ⟨[("se".data, "ACT".data)],
        [("a".data, "see".data), ("see".data, "se".data)], true, 3/5⟩ "a".data =
      some ⟨"ACT".data, "a".data, some "se".data, 4/5, "fuzzy".data⟩ := by
  have hrt : ratio "see".data "se".data = 4/5 := by
    norm_num [ratio, show matchSize "see".data "se".data = 2 from by decide]
  have hs : score "see".data "se".data = 4/5 := by
    unfold score
    rw [if_pos (by decide), hrt]
    exact max_self _
  have hfm : fuzzyMatch [("se".data, "ACT".data)] "see".data =
      (some "se".data, 4/5) := by
    rw [fuzzyMatch_singleton, hs, if_pos (by norm_num : (0:ℚ) < 4/5)]
  refine ⟨by decide, by decide, by decide, ?_⟩
  rw [process_def,
    show (⟨[("se".data, "ACT".data)],
      [("a".data, "see".data), ("see".data, "se".data)], true, 3/5⟩ :
        ParserState).aliases = [("a".data, "see".data), ("see".data, "se".data)]
      from rfl,
    show resolveAlias [("a".data, "see".data), ("see".data, "se".data)]
      (pyNormalize "a".data) = "see".data from by decide]
  rw [matchPhase_eq_fuzzy ⟨[("se".data, "ACT".data)],
      [("a".data, "see".data), ("see".data, "se".data)], true, 3/5⟩ "a".data
      "see".data "se".data "ACT".data (by decide) rfl
      (by rw [show (⟨[("se".data, "ACT".data)],
          [("a".data, "see".data), ("see".data, "se".data)], true, 3/5⟩ :
            ParserState).commands = [("se".data, "ACT".data)] from rfl, hfm])
      (by decide)
      (by rw [show (⟨[("se".data, "ACT".data)],
          [("a".data, "see".data), ("see".data, "se".data)], true, 3/5⟩ :
            ParserState).commands = [("se".data, "ACT".data)] from rfl, hfm]
          norm_num)
      (by decide)]
  rw [show (⟨[("se".data, "ACT".data)],
      [("a".data, "see".data), ("see".data, "se".data)], true, 3/5⟩ :
        ParserState).commands = [("se".data, "ACT".data)] from rfl, hfm]

/-- Claim C7 amended: alias substitution is single-hop: when the normalized
input is an alias key with target B, the resolution is unchanged if the alias
table is replaced by that single entry, so B is never re-resolved through the
alias table; B is then matched against the command set only. -/
theorem alias_single_hop (st : ParserState) (A B : Str)
    (h : lookup st.aliases (pyNormalize A) = some B) :
    process st A =
      process ⟨st.commands, [(pyNormalize A, B)], st.fuzzy_matching,
        st.confidence_threshold⟩ A := by
  have e1 : resolveAlias st.aliases (pyNormalize A) = B := by
    unfold resolveAlias
    rw [h]
  have e2 : resolveAlias [(pyNormalize A, B)] (pyNormalize A) = B := by
    simp [resolveAlias, lookup]
  show matchPhase st A (resolveAlias st.aliases (pyNormalize A)) =
    matchPhase ⟨st.commands, [(pyNormalize A, B)], st.fuzzy_matching,
      st.confidence_threshold⟩ A (resolveAlias [(pyNormalize A, B)] (pyNormalize A))
  rw [e1, e2]
  rfl

/-- Witness for C7 amended on the chained-alias catalog. -/
theorem alias_single_hop_witness :
    process ⟨[("se".data, "ACT".data)],
        [("a".data, "see".data), ("see".data, "se".data)], true, 3/5⟩ "a".data =
      process ⟨[("se".data, "ACT".data)], [(pyNormalize "a".data, "see".data)],
        true, 3/5⟩ "a".data :=
  alias_single_hop ⟨[("se".data, "ACT".data)],
    [("a".data, "see".data), ("see".data, "se".data)], true, 3/5⟩ "a".data "see".data
    (by decide)

/-- Claim C9: when transcription returns non-empty text, the resolver runs
and exactly the transcription event and the resolution event are handed to
the log sink, in that order and as distinct events, even for an UNKNOWN
resolution; the outcome is present (no failure, no error event) and its
success flag is set exactly when the resolved action differs from UNKNOWN. -/
theorem transcription_success_pipeline (α : Type) (audio : α)
    (speakerOf : α → Option SpeakerInfo) (transcribeOf : α → Option Transcription)
    (parser : ParserState) (tr : Transcription)
    (htr : transcribeOf audio = some tr) (hne : tr.text ≠ []) :
    ∃ cr, process parser tr.text = some cr ∧
      process_voice_command (some audio) speakerOf transcribeOf parser =
        (some ⟨tr, cr, speakerOf audio, !(cr.command == "UNKNOWN".data)⟩,
         [LogEvent.transcription tr.text tr.language (speakerOf audio),
          LogEvent.command cr]) ∧
      ((!(cr.command == "UNKNOWN".data)) = true ↔ cr.command ≠ "UNKNOWN".data) := by
  rcases Option.isSome_iff_exists.mp (process_isSome parser tr.text) with ⟨cr, hcr⟩
  refine ⟨cr, hcr, ?_, by simp⟩
  have hie : tr.text.isEmpty = false := by
    cases htt : tr.text with
    | nil => exact absurd htt hne
    | cons c cs => rfl
  unfold process_voice_command
  simp only [htr, hie, Bool.false_eq_true, if_false, hcr]

/-- Witness for C9 on an UNKNOWN resolution: the run is still logged as a
transcription event plus a resolution event and returned without failure. -/
theorem transcription_success_pipeline_witness :
    ∃ cr, process ⟨[], [], false, 0⟩ "stop".data = some cr ∧
      process_voice_command (some ()) (fun _ => none)
          (fun _ => some ⟨"stop".data, "en".data⟩) ⟨[], [], false, 0⟩ =
        (some ⟨⟨"stop".data, "en".data⟩, cr, none, !(cr.command == "UNKNOWN".data)⟩,
         [LogEvent.transcription "stop".data "en".data none, LogEvent.command cr]) ∧
      ((!(cr.command == "UNKNOWN".data)) = true ↔ cr.command ≠ "UNKNOWN".data) :=
  transcription_success_pipeline Unit () (fun _ => none)
    (fun _ => some ⟨"stop".data, "en".data⟩) ⟨[], [], false, 0⟩
    ⟨"stop".data, "en".data⟩ rfl (by decide)
